import Mathlib

/-!
# Verification of the vim-clap fuzzy matcher (`pythonx/clap/`)

A shallow embedding of the Python fuzzy-matching engine of vim-clap:

* `pythonx/clap/fzy_impl.py` — the fzy-style subsequence scorer
  (`bonus`, `subsequence`, `score`, `positions`, `fzy_scorer`);
* `pythonx/clap/fzy.py` — the ranking pipeline (`apply_score`,
  `fuzzy_match_py`).

Strings are modelled as `List Char`.  Python floats holding the score are
modelled exactly: every constant of the algorithm is an integer multiple
of 0.001 and the score arithmetic only ever adds such constants, so a
finite score is an integer number of thousandths; we carry that integer
(the score scaled by 1000) and adjoin the two sentinels `float("-inf")` /
`float("inf")` (type `FScore`).  The float-specific rounding of the
decimal literals is the only divergence from CPython and does not affect
the comparison structure used below.  Python `str.lower` is modelled by
ASCII lowering (`Char.toLower`), which agrees with Python on ASCII
input.
-/

namespace Clap

/-- Score values: Python float `-inf`, a finite value (scaled by 1000, so
`val 900` is the float `0.9`), or `+inf` (`SCORE_MIN` / `SCORE_MAX` in
`fzy_impl.py`). -/
inductive FScore where
  | ninf : FScore
  | val : ℤ → FScore
  | pinf : FScore
deriving DecidableEq

/-- Adding a finite constant to a score, as Python float `+` behaves on
the values the algorithm produces (`-inf + q = -inf`). -/
def FScore.addQ : FScore → ℤ → FScore
  | .ninf, _ => .ninf
  | .val a, q => .val (a + q)
  | .pinf, _ => .pinf

/-- Python float `<` on the scores occurring in the algorithm. -/
def FScore.blt : FScore → FScore → Bool
  | .ninf, .ninf => false
  | .ninf, _ => true
  | .val _, .ninf => false
  | .val a, .val b => decide (a < b)
  | .val _, .pinf => true
  | .pinf, _ => false

/-- Python `max(a, b)`: returns `a` unless `a < b`. -/
def FScore.fmax (a b : FScore) : FScore := if FScore.blt a b then b else a

/-  Constants of fzy_impl.py, scaled by 1000:
    SCORE_GAP_LEADING = -0.005, SCORE_GAP_TRAILING = -0.005,
    SCORE_GAP_INNER = -0.01, SCORE_MATCH_CONSECUTIVE = 1.0. -/

/-- `SCORE_GAP_LEADING = -0.005` (scaled by 1000). -/
def SCORE_GAP_LEADING : ℤ := -5
/-- `SCORE_GAP_TRAILING = -0.005` (scaled by 1000). -/
def SCORE_GAP_TRAILING : ℤ := -5
/-- `SCORE_GAP_INNER = -0.01` (scaled by 1000). -/
def SCORE_GAP_INNER : ℤ := -10
/-- `SCORE_MATCH_CONSECUTIVE = 1.0` (scaled by 1000). -/
def SCORE_MATCH_CONSECUTIVE : ℤ := 1000

/-- `SCORE_MATCH_SLASH = 0.9` (scaled by 1000). -/
def SCORE_MATCH_SLASH : ℤ := 900
/-- `SCORE_MATCH_WORD = 0.8` (scaled by 1000). -/
def SCORE_MATCH_WORD : ℤ := 800
/-- `SCORE_MATCH_CAPITAL = 0.7` (scaled by 1000). -/
def SCORE_MATCH_CAPITAL : ℤ := 700
/-- `SCORE_MATCH_DOT = 0.6` (scaled by 1000). -/
def SCORE_MATCH_DOT : ℤ := 600

/-- `BONUS_MAP` of fzy_impl.py: bonus keyed by the previous character. -/
def BONUS_MAP (c : Char) : ℤ :=
  if c = '/' then SCORE_MATCH_SLASH
  else if c = '-' ∨ c = '_' ∨ c = ' ' then SCORE_MATCH_WORD
  else if c = '.' then SCORE_MATCH_DOT
  else 0

/-- `BONUS_INDEX` of fzy_impl.py: digits and lowercase letters map to
state 1, uppercase letters to state 2, everything else to state 0. -/
def BONUS_INDEX (c : Char) : ℕ :=
  if ('a' ≤ c ∧ c ≤ 'z') ∨ ('0' ≤ c ∧ c ≤ '9') then 1
  else if 'A' ≤ c ∧ c ≤ 'Z' then 2
  else 0

/-- `BONUS_STATES[idx].get(c_prev, 0)`: state 0 is the empty table, state 1
is `BONUS_MAP`, state 2 is `BONUS_MAP` extended with every lowercase
previous character mapped to `SCORE_MATCH_CAPITAL = 0.7`. -/
def BONUS_STATES (idx : ℕ) (cPrev : Char) : ℤ :=
  match idx with
  | 0 => 0
  | 1 => BONUS_MAP cPrev
  | _ => if 'a' ≤ cPrev ∧ cPrev ≤ 'z' then SCORE_MATCH_CAPITAL else BONUS_MAP cPrev

/-- Body of `bonus`: walk the haystack carrying the previous character
(initially `'/'`). -/
def bonusGo (cPrev : Char) : List Char → List ℤ
  | [] => []
  | c :: cs => BONUS_STATES (BONUS_INDEX c) cPrev :: bonusGo c cs

/-- `bonus(haystack)` of fzy_impl.py. -/
def bonus (haystack : List Char) : List ℤ := bonusGo '/' haystack

/-- Greedy scan of `subsequence`: for each needle character, find it at or
after the cursor in the haystack (`haystack.find(char, offset)`), fail if
absent. -/
def subseqGo : List Char → List Char → Bool
  | [], _ => true
  | _ :: _, [] => false
  | c :: cs, x :: xs => if x = c then subseqGo cs xs else subseqGo (c :: cs) xs

/-- `subsequence(niddle, haystack)` of fzy_impl.py: both sides lowered,
then the greedy forward scan. -/
def subsequence (niddle haystack : List Char) : Bool :=
  subseqGo (niddle.map Char.toLower) (haystack.map Char.toLower)

/-- One row of the `D` matrix.  `first` is `i == 0`; `Dp`, `Mp` are the
previous row (unused when `first`).  Mirrors the match branch of the inner
loop of `score`; a mismatching cell is `SCORE_MIN`. -/
def Drow (qc : Char) (hL : List Char) (bon : List ℤ) (first : Bool)
    (Dp Mp : ℕ → FScore) (j : ℕ) : FScore :=
  if hL.getD j ' ' = qc then
    if first then .val ((j : ℤ) * SCORE_GAP_LEADING + bon.getD j 0)
    else if j = 0 then .ninf
    else FScore.fmax ((Mp (j - 1)).addQ (bon.getD j 0))
      ((Dp (j - 1)).addQ SCORE_MATCH_CONSECUTIVE)
  else .ninf

/-- One row of the `M` matrix: running `prev_score` threaded through
`max(score, prev_score + gap_score)` (`prev_score` starts at `SCORE_MIN`).
In the mismatch branch the code assigns `prev_score + gap_score`, which
equals `max(SCORE_MIN, prev_score + gap_score)`, so the two branches share
one shape. -/
def Mrow (gap : ℤ) (Di : ℕ → FScore) : ℕ → FScore
  | 0 => FScore.fmax (Di 0) (FScore.ninf.addQ gap)
  | j + 1 => FScore.fmax (Di (j + 1)) ((Mrow gap Di j).addQ gap)

/-- `gap_score` of row `i`: trailing gap on the last needle row, inner gap
otherwise. -/
def gapFor (n i : ℕ) : ℤ :=
  if i = n - 1 then SCORE_GAP_TRAILING else SCORE_GAP_INNER

/-- The `D`/`M` matrices of `score` (and `compute`), row by row. -/
def dpRows (hL : List Char) (bon : List ℤ) (n : ℕ) (qL : List Char) :
    ℕ → (ℕ → FScore) × (ℕ → FScore)
  | 0 =>
    let d := Drow (qL.getD 0 ' ') hL bon true (fun _ => .ninf) (fun _ => .ninf)
    (d, Mrow (gapFor n 0) d)
  | i + 1 =>
    let p := dpRows hL bon n qL i
    let d := Drow (qL.getD (i + 1) ' ') hL bon false p.1 p.2
    (d, Mrow (gapFor n (i + 1)) d)

/-- The matrices for a given needle/haystack: bonus from the raw haystack,
matching on the lowered strings. -/
def scoreRows (niddle haystack : List Char) : ℕ → (ℕ → FScore) × (ℕ → FScore) :=
  dpRows (haystack.map Char.toLower) (bonus haystack) niddle.length
    (niddle.map Char.toLower)

/-- Entry `D[i][j]`. -/
def dpD (niddle haystack : List Char) (i j : ℕ) : FScore :=
  (scoreRows niddle haystack i).1 j

/-- Entry `M[i][j]`. -/
def dpM (niddle haystack : List Char) (i j : ℕ) : FScore :=
  (scoreRows niddle haystack i).2 j

/-- Inner backtrace loop: scan `j` downward (`jN` is the current `j + 1`)
for the first cell with `(match_required or D == M) and D != SCORE_MIN`. -/
def scanRow (Di Mi : ℕ → FScore) (mr : Bool) : ℕ → Option ℕ
  | 0 => none
  | jN + 1 =>
    if (mr || decide (Di jN = Mi jN)) && !decide (Di jN = FScore.ninf) then
      some jN
    else scanRow Di Mi mr jN

/-- Outer backtrace loop over the rows, top row first; the first argument
is the number of rows still to process.  On a found cell the recorded `j`
becomes the exclusive bound for the next row and `match_required` is
recomputed; if a row's scan is exhausted, `j` stays `-1` (bound `0`) and
the remaining entries keep their initial `0`. -/
def btGo (rows : ℕ → (ℕ → FScore) × (ℕ → FScore)) : ℕ → ℕ → Bool → List ℕ
  | 0, _, _ => []
  | i + 1, jN, mr =>
    match scanRow (rows i).1 (rows i).2 mr jN with
    | some j =>
      btGo rows i j
        (decide (0 < i) && decide (0 < j) &&
          decide ((rows i).2 j = ((rows (i - 1)).1 (j - 1)).addQ SCORE_MATCH_CONSECUTIVE))
        ++ [j]
    | none => btGo rows i 0 mr ++ [0]

/-- `score(niddle, haystack)` of fzy_impl.py: the `n == 0 or n == m`
short-circuit to `SCORE_MAX` with offsets `0..n-1`, otherwise the DP fill
followed by the backtrace; the score is `M[n-1][m-1]`. -/
def score (niddle haystack : List Char) : FScore × List ℕ :=
  let n := niddle.length
  let m := haystack.length
  if n = 0 ∨ n = m then (.pinf, List.range n)
  else
    let rows := scoreRows niddle haystack
    ((rows (n - 1)).2 (m - 1), btGo rows n m false)

/-- `positions(niddle, haystack)` of fzy_impl.py.  The early branches
(`n == 0 or m == 0`, `n == m`, `m > 1024`) return the bare zero-filled
positions list, while the main branch returns a `(score, positions)`
pair; the sum type records that shape difference of the Python function.
This helper is not called by the ranking path. -/
def positions (niddle haystack : List Char) : ((FScore × List ℕ) ⊕ List ℕ) :=
  let n := niddle.length
  let m := haystack.length
  if n = 0 ∨ m = 0 then .inr (List.replicate n 0)
  else if n = m then .inr (List.replicate n 0)
  else if 1024 < m then .inr (List.replicate n 0)
  else
    let rows := scoreRows niddle haystack
    .inl ((rows (n - 1)).2 (m - 1), btGo rows n m false)

/-- `fzy_scorer(niddle, haystack)` of fzy_impl.py: subsequence test first;
on failure `(SCORE_MIN, None)`, otherwise `score`. -/
def fzy_scorer (niddle haystack : List Char) : FScore × Option (List ℕ) :=
  if subsequence niddle haystack then
    ((score niddle haystack).1, some (score niddle haystack).2)
  else (.ninf, none)

/-- Does `needle` start `hay`? -/
def startsWith : List Char → List Char → Bool
  | [], _ => true
  | _ :: _, [] => false
  | a :: as, b :: bs => if b = a then startsWith as bs else false

/-- First index `≥ pos` (absolute) at which `needle` occurs in the given
suffix of the haystack. -/
def findFromGo (needle : List Char) : List Char → ℕ → Option ℕ
  | [], pos => if startsWith needle [] then some pos else none
  | h :: t, pos =>
    if startsWith needle (h :: t) then some pos else findFromGo needle t (pos + 1)

/-- Python `haystack.find(needle, start)` (as an `Option` instead of `-1`). -/
def findFrom (needle hay : List Char) (start : ℕ) : Option ℕ :=
  findFromGo needle (hay.drop start) start

/-- Whitespace-delimited segments of the query (empty segments dropped). -/
def splitWs (l : List Char) : List (List Char) :=
  (l.splitOn ' ').filter (fun w => !w.isEmpty)

/-- Match the segments left to right, each searched at or after the end of
the previous segment's match; collect the matched index ranges and the sum
of the match start positions. -/
def substrGo (hayL : List Char) : List (List Char) → ℕ → Option (List ℕ × ℤ)
  | [], _ => some ([], 0)
  | seg :: rest, cur =>
    match findFrom seg hayL cur with
    | none => none
    | some p =>
      match substrGo hayL rest (p + seg.length) with
      | none => none
      | some (offs, s) => some (List.range' p seg.length ++ offs, s + p)

/-- Modelled from the spec: `substr_scorer` lives in
`pythonx/clap/scorer.py`, which is not among the provided sources (only
its import in `fzy.py` is).  Spec section 4.2: the query is split into
whitespace-delimited segments, a candidate matches only if every segment
occurs as a contiguous case-insensitive substring, offsets are the
concatenation in segment order of each segment's matched index range, and
the aggregate score is left open; we take the order-preserving reading
(each segment searched after the previous match) and make the score the
negated sum of the segment match start positions, so earlier matches score
higher. -/
def substr_scorer (niddle haystack : List Char) : FScore × Option (List ℕ) :=
  match substrGo (haystack.map Char.toLower) (splitWs (niddle.map Char.toLower)) 0 with
  | none => (.ninf, none)
  | some (offs, s) => (.val (-s), some offs)

/-- One scored entry of `apply_score` (`{'score': …, 'indices': …,
'text': …}`). -/
structure Scored where
  score : FScore
  indices : Option (List ℕ)
  text : List Char
deriving DecidableEq

/-- The scorer interface: `(query, candidate) ↦ (score, indices)`. -/
def ScorerFn : Type := List Char → List Char → FScore × Option (List ℕ)

/-- `apply_score(scorer, query, candidates, enable_icon)` of fzy.py: with
icons enabled the first two characters are stripped before scoring and
every returned index is shifted by `+4`; candidates scoring `-inf` are
dropped.  (Python shifts `indices` only after the `-inf` filter, where it
is always a real list for both scorers; the `Option.map` here is
equivalent on those inputs.) -/
def apply_score (scorer : ScorerFn) (query : List Char)
    (candidates : List (List Char)) (enable_icon : Bool) : List Scored :=
  candidates.filterMap fun c =>
    let candidate := if enable_icon then c.drop 2 else c
    let r := scorer query candidate
    if r.1 = .ninf then none
    else
      some ⟨r.1,
        if enable_icon then r.2.map (fun l => l.map (· + 4)) else r.2, c⟩

/-- Stable insertion used to model Python `sorted(..., key=score,
reverse=True)`: an element moves past exactly the strictly greater scores,
so equal scores keep their input order. -/
def insertDesc (x : Scored) : List Scored → List Scored
  | [] => [x]
  | y :: ys =>
    if FScore.blt x.score y.score then y :: insertDesc x ys else x :: y :: ys

/-- Python's `sorted` by score descending (a stable sort, modelled
extensionally by right-fold insertion). -/
def sortDesc (l : List Scored) : List Scored := l.foldr insertDesc []

/-- Scorer dispatch of `fuzzy_match_py`: substring scorer iff the query
contains a space. -/
def scorerFor (query : List Char) : ScorerFn :=
  if ' ' ∈ query then substr_scorer else fzy_scorer

/-- The scored (unsorted) list built by `fuzzy_match_py`. -/
def scoredList (query : List Char) (candidates : List (List Char))
    (enable_icon : Bool) : List Scored :=
  apply_score (scorerFor query) query candidates enable_icon

/-- The ranked list of `fuzzy_match_py` after the stable descending sort. -/
def rankedList (query : List Char) (candidates : List (List Char))
    (enable_icon : Bool) : List Scored :=
  sortDesc (scoredList query candidates enable_icon)

/-- `fuzzy_match_py(query, candidates, enable_icon)` of fzy.py: the two
parallel output sequences (indices, filtered texts). -/
def fuzzy_match_py (query : List Char) (candidates : List (List Char))
    (enable_icon : Bool) : List (Option (List ℕ)) × List (List Char) :=
  ((rankedList query candidates enable_icon).map (·.indices),
   (rankedList query candidates enable_icon).map (·.text))

/-- The spec's "effective matched length" of a query: for a single-token
query its length, for a multi-segment query the total length of its
segments. -/
def effectiveLen (query : List Char) : ℕ :=
  if ' ' ∈ query then
    ((splitWs (query.map Char.toLower)).map List.length).sum
  else query.length

/-- A candidate longer than the 1024-character threshold: 1024 copies of
`'a'` followed by `'b'`. -/
def bigHay : List Char := List.replicate 1024 'a' ++ ['b']

/-- The list of positions the greedy `subsequence` scan would choose,
starting the position counter at `k` (proof-support companion of
`subseqGo`). -/
def subseqPos : List Char → List Char → ℕ → Option (List ℕ)
  | [], _, _ => some []
  | _ :: _, [], _ => none
  | c :: cs, x :: xs, k =>
    if x = c then (subseqPos cs xs (k + 1)).map (k :: ·)
    else subseqPos (c :: cs) xs (k + 1)

/-- Invariant carried by the backtrace across rows: if `match_required`
is set, the cell just below the bound is a non-sentinel `D` cell;
otherwise some cell below the bound has `D = M ≠ SCORE_MIN`. -/
def BtInv (Di Mi : ℕ → FScore) (jN : ℕ) (mr : Bool) : Prop :=
  (mr = true → 0 < jN ∧ Di (jN - 1) ≠ .ninf) ∧
  (mr = false → ∃ j, j < jN ∧ Di j = Mi j ∧ Di j ≠ .ninf)

/-!  ## Basic facts about scores -/

theorem FScore.addQ_eq_ninf {x : FScore} {q : ℤ} : x.addQ q = .ninf ↔ x = .ninf := by
  cases x <;> simp [FScore.addQ]

theorem FScore.fmax_eq_or (a b : FScore) :
    FScore.fmax a b = a ∨ FScore.fmax a b = b := by
  unfold FScore.fmax
  split <;> simp

theorem FScore.fmax_eq_ninf {a b : FScore} :
    FScore.fmax a b = .ninf ↔ a = .ninf ∧ b = .ninf := by
  cases a <;> cases b <;> simp [FScore.fmax, FScore.blt] <;> split <;> simp

theorem FScore.fmax_ninf_right (a : FScore) : FScore.fmax a .ninf = a := by
  cases a <;> simp [FScore.fmax, FScore.blt]

theorem FScore.blt_irrefl (a : FScore) : FScore.blt a a = false := by
  cases a <;> simp [FScore.blt]

theorem FScore.blt_asymm {a b : FScore} (h : FScore.blt a b = true) :
    FScore.blt b a = false := by
  cases a <;> cases b <;> simp_all [FScore.blt] <;> omega

theorem FScore.blt_trans_neg {a b c : FScore} (hab : FScore.blt a b = false)
    (hbc : FScore.blt b c = false) : FScore.blt a c = false := by
  cases a <;> cases b <;> cases c <;> simp_all [FScore.blt] <;> omega

/-!  ## Claims C9, C7, C2, C1 -/

/-- Claim C9: for every fixed query, candidate list, and icon flag, two
runs of the ranking function produce identical outputs, including tie
order and every offset list — `fuzzy_match_py` is a pure function of its
inputs, so determinism is definitional. -/
theorem C9_deterministic (q : List Char) (cs : List (List Char)) (icon : Bool) :
    fuzzy_match_py q cs icon = fuzzy_match_py q cs icon := rfl

/-- Claim C7: for a non-empty single-token query equal to the candidate
case-insensitively (same length and a case-insensitive subsequence), the
scorer returns the maximum representable score with offsets
`[0, …, len-1]`. -/
theorem C7_perfect_match (q c : List Char) (hq : q ≠ []) (hlen : q.length = c.length)
    (hsub : subsequence q c = true) :
    fzy_scorer q c = (.pinf, some (List.range c.length)) := by
  unfold fzy_scorer
  rw [hsub]
  simp [score, hlen]

theorem C7_perfect_match_witness :
    fzy_scorer ['A'] ['a'] = (.pinf, some (List.range 1)) :=
  C7_perfect_match ['A'] ['a'] (by decide) (by decide) (by decide)

theorem insertDesc_of_not_blt (x : Scored) (l : List Scored)
    (h : ∀ y ∈ l, FScore.blt x.score y.score = false) : insertDesc x l = x :: l := by
  cases l with
  | nil => rfl
  | cons y ys => simp [insertDesc, h y (by simp)]

theorem sortDesc_of_const_score (s : FScore) :
    ∀ l : List Scored, (∀ y ∈ l, y.score = s) → sortDesc l = l := by
  intro l
  induction l with
  | nil => intro _; rfl
  | cons x xs ih =>
    intro h
    have hxs : ∀ y ∈ xs, y.score = s := fun y hy => h y (by simp [hy])
    have : sortDesc (x :: xs) = insertDesc x (sortDesc xs) := rfl
    rw [this, ih hxs, insertDesc_of_not_blt]
    intro y hy
    rw [h x (by simp), hxs y hy]
    exact FScore.blt_irrefl s

/-- Claim C2 (amended): the empty query is not rejected; every candidate
is scored `SCORE_MAX` with empty offsets and all of them are returned in
input order. -/
theorem C2_empty_query_returns_all (cs : List (List Char)) (icon : Bool) :
    scoredList [] cs icon = cs.map (fun c => ⟨.pinf, some [], c⟩) ∧
    fuzzy_match_py [] cs icon = (cs.map (fun _ => some []), cs) := by
  have hscored : scoredList [] cs icon = cs.map (fun c => ⟨.pinf, some [], c⟩) := by
    unfold scoredList scorerFor
    simp only [List.not_mem_nil, if_neg, ite_false]
    show apply_score fzy_scorer [] cs icon = _
    unfold apply_score
    rw [List.filterMap_eq_map_iff_forall_eq_some.mpr]
    intro c _
    have : fzy_scorer [] (if icon then c.drop 2 else c) = (.pinf, some []) := by
      unfold fzy_scorer subsequence subseqGo
      simp [score]
    cases icon <;> simp_all
  refine ⟨hscored, ?_⟩
  unfold fuzzy_match_py rankedList
  rw [hscored, sortDesc_of_const_score FScore.pinf]
  · simp [List.map_map, Function.comp_def]
  · intro y hy
    simp at hy
    obtain ⟨c, _, rfl⟩ := hy
    rfl

/-- Claim C2 (counterexample): for the empty query the engine does not
fail and does return candidates — `fuzzy_match_py("", ["a"], False)`
returns the candidate `"a"` with empty offsets. -/
theorem C2_cex :
    fuzzy_match_py [] [['a']] false = ([some []], [['a']]) ∧
    (fuzzy_match_py [] [['a']] false).2 ≠ ([] : List (List Char)) := by
  constructor
  · decide
  · decide

/-- Claim C1 (amended): with icons enabled the ranker strips the first
two characters of each candidate before scoring but shifts the returned
offsets by `+4` (not by the stripped width 2): scores, kept/dropped
pattern and texts agree with the icon-disabled run on the 2-stripped
candidates, and each offset list is the stripped run's list shifted
uniformly by `+4`. -/
theorem C1_icon_strips_two_shifts_four (scorer : ScorerFn) (q : List Char)
    (cs : List (List Char)) :
    (apply_score scorer q cs true).map (fun it => (it.score, it.indices)) =
      (apply_score scorer q (cs.map (List.drop 2)) false).map
        (fun it => (it.score, it.indices.map (List.map (· + 4)))) ∧
    (apply_score scorer q cs true).map (fun it => it.text.drop 2) =
      (apply_score scorer q (cs.map (List.drop 2)) false).map (fun it => it.text) := by
  induction cs with
  | nil => exact ⟨rfl, rfl⟩
  | cons c cs ih =>
    unfold apply_score at *
    simp only [List.map_cons, List.filterMap_cons]
    by_cases h : (scorer q (c.drop 2)).1 = FScore.ninf <;>
      simp_all

/-- Claim C1 (counterexample): query `"a"`, candidate `"xyab"` with icons
enabled: the stripped candidate is `"ab"`, the stripped run matches at
offset `0`, but the surfaced offset is `4`, not `0 + 2` (2 being the
stripped width), so the offset does not point at the matched character of
the original candidate. -/
theorem C1_cex :
    (apply_score fzy_scorer ['a'] [['x', 'y', 'a', 'b']] true).map (·.indices) =
      [some [4]] ∧
    (apply_score fzy_scorer ['a'] [(['x', 'y', 'a', 'b']).drop 2] false).map (·.indices) =
      [some [0]] ∧
    ¬ (some [(4 : ℕ)] = some [0 + 2]) := by
  refine ⟨by decide, by decide, by decide⟩

/-!  ## Claim C3: the 1024-character cap

The oversized candidate `bigHay` (`"a" * 1024 + "b"`) is evaluated
symbolically over the family `replicate k 'a' ++ ['b']`. -/

theorem hayK_lower (k : ℕ) :
    (List.replicate k 'a' ++ ['b']).map Char.toLower = List.replicate k 'a' ++ ['b'] := by
  have ha : Char.toLower 'a' = 'a' := rfl
  have hb : Char.toLower 'b' = 'b' := rfl
  simp [List.map_replicate, ha, hb]

theorem hayK_getD_lt {k j : ℕ} (h : j < k) :
    (List.replicate k 'a' ++ ['b'] : List Char).getD j ' ' = 'a' := by
  rw [List.getD_append _ _ _ _ (by simpa using h)]
  rw [List.getD_eq_getElem _ _ (by simpa using h)]
  simp

theorem hayK_getD_last (k : ℕ) :
    (List.replicate k 'a' ++ ['b'] : List Char).getD k ' ' = 'b' := by
  rw [List.getD_append_right _ _ _ _ (by simp)]
  simp

theorem hayK_bonus_getD : ∀ k : ℕ, ∀ prev : Char,
    (bonusGo prev (List.replicate (k + 1) 'a' ++ ['b'])).getD (k + 1) 0 = 0
  | 0, prev => by
    show (bonusGo prev ['a', 'b']).getD 1 0 = 0
    simp [bonusGo, List.getD]
    decide
  | k + 1, prev => by
    show (bonusGo prev ('a' :: (List.replicate (k + 1) 'a' ++ ['b']))).getD (k + 2) 0 = 0
    simpa [bonusGo, List.getD] using hayK_bonus_getD k 'a'

theorem hayK_subseq (k : ℕ) : subsequence ['b'] (List.replicate k 'a' ++ ['b']) = true := by
  unfold subsequence
  rw [hayK_lower]
  show subseqGo ['b'] _ = true
  induction k with
  | zero => decide
  | succ k ih =>
    show subseqGo ['b'] ('a' :: (List.replicate k 'a' ++ ['b'])) = true
    simpa [subseqGo] using ih

theorem hayK_D0_lt {k j : ℕ} (hj : j < k) (bon : List ℤ) (Dp Mp : ℕ → FScore) :
    Drow 'b' (List.replicate k 'a' ++ ['b']) bon true Dp Mp j = .ninf := by
  unfold Drow
  rw [hayK_getD_lt hj]
  simp

theorem hayK_D0_last (k : ℕ) (hk : 1 ≤ k) (Dp Mp : ℕ → FScore) :
    Drow 'b' (List.replicate k 'a' ++ ['b'])
      (bonus (List.replicate k 'a' ++ ['b'])) true Dp Mp k = .val (-5 * k) := by
  unfold Drow
  rw [hayK_getD_last k]
  obtain ⟨k', rfl⟩ : ∃ k', k = k' + 1 := ⟨k - 1, by omega⟩
  have hb := hayK_bonus_getD k' '/'
  simp only [if_pos rfl, if_pos trivial, bonus, hb, SCORE_GAP_LEADING]
  congr 1
  push_cast
  ring

theorem hayK_M0_lt {k : ℕ} (gap : ℤ) (bon : List ℤ) (Dp Mp : ℕ → FScore) :
    ∀ j, j < k →
      Mrow gap (Drow 'b' (List.replicate k 'a' ++ ['b']) bon true Dp Mp) j = .ninf := by
  intro j
  induction j with
  | zero =>
    intro h0
    show FScore.fmax _ _ = _
    rw [hayK_D0_lt h0]
    rfl
  | succ j ih =>
    intro hj
    show FScore.fmax _ ((Mrow _ _ j).addQ gap) = _
    rw [hayK_D0_lt hj, ih (by omega)]
    rfl

theorem scanRow_found {Di Mi : ℕ → FScore} (k : ℕ) (mr : Bool)
    (hD : Di k = Mi k) (hne : Di k ≠ .ninf) : scanRow Di Mi mr (k + 1) = some k := by
  have hDd : decide (Di k = Mi k) = true := by simpa using hD
  have hne' : decide (Di k = FScore.ninf) = false := by simpa using hne
  unfold scanRow
  rw [hDd, hne']
  simp

theorem btGo_one (rows : ℕ → (ℕ → FScore) × (ℕ → FScore)) (jN : ℕ) (mr : Bool) (j : ℕ)
    (h : scanRow (rows 0).1 (rows 0).2 mr jN = some j) : btGo rows 1 jN mr = [j] := by
  unfold btGo
  rw [h]
  rfl

theorem fzy_scorer_hayK (k : ℕ) (hk : 1 ≤ k) :
    fzy_scorer ['b'] (List.replicate k 'a' ++ ['b']) = (.val (-5 * k), some [k]) := by
  unfold fzy_scorer
  rw [hayK_subseq k]
  have hrow0 : scoreRows ['b'] (List.replicate k 'a' ++ ['b']) 0 =
      (Drow 'b' (List.replicate k 'a' ++ ['b'])
         (bonus (List.replicate k 'a' ++ ['b'])) true (fun _ => .ninf) (fun _ => .ninf),
       Mrow (gapFor 1 0)
         (Drow 'b' (List.replicate k 'a' ++ ['b'])
            (bonus (List.replicate k 'a' ++ ['b'])) true (fun _ => .ninf) (fun _ => .ninf))) := by
    unfold scoreRows
    rw [hayK_lower]
    rfl
  have hD := hayK_D0_last k hk (fun _ => FScore.ninf) (fun _ => FScore.ninf)
  have hMk : Mrow (gapFor 1 0)
      (Drow 'b' (List.replicate k 'a' ++ ['b'])
        (bonus (List.replicate k 'a' ++ ['b'])) true (fun _ => .ninf) (fun _ => .ninf)) k =
      .val (-5 * k) := by
    obtain ⟨k', rfl⟩ : ∃ k', k = k' + 1 := ⟨k - 1, by omega⟩
    show FScore.fmax _ ((Mrow _ _ k').addQ _) = _
    rw [hayK_M0_lt (gapFor 1 0) _ _ _ k' (by omega), hD]
    rfl
  have hfst : ∀ j, (scoreRows ['b'] (List.replicate k 'a' ++ ['b']) 0).1 j =
      Drow 'b' (List.replicate k 'a' ++ ['b'])
        (bonus (List.replicate k 'a' ++ ['b'])) true (fun _ => .ninf) (fun _ => .ninf) j := by
    intro j
    rw [hrow0]
  have hsnd : ∀ j, (scoreRows ['b'] (List.replicate k 'a' ++ ['b']) 0).2 j =
      Mrow (gapFor 1 0)
        (Drow 'b' (List.replicate k 'a' ++ ['b'])
           (bonus (List.replicate k 'a' ++ ['b'])) true (fun _ => .ninf) (fun _ => .ninf)) j := by
    intro j
    rw [hrow0]
  have hscan : scanRow (scoreRows ['b'] (List.replicate k 'a' ++ ['b']) 0).1
      (scoreRows ['b'] (List.replicate k 'a' ++ ['b']) 0).2 false (k + 1) = some k := by
    refine scanRow_found k false ?_ ?_
    · rw [hfst, hsnd, hD, hMk]
    · rw [hfst, hD]
      simp
  have hscore : score ['b'] (List.replicate k 'a' ++ ['b']) = (.val (-5 * k), [k]) := by
    unfold score
    simp only [List.length_singleton, List.length_append, List.length_replicate]
    rw [if_neg (by omega : ¬((1 : ℕ) = 0 ∨ 1 = k + 1))]
    show ((scoreRows ['b'] (List.replicate k 'a' ++ ['b']) 0).2 k,
      btGo (scoreRows ['b'] (List.replicate k 'a' ++ ['b'])) 1 (k + 1) false) = _
    rw [btGo_one _ _ _ k hscan, hsnd, hMk]
  rw [hscore]
  simp

/-- Claim C3 (counterexample): the scorer used by the ranking path
(`fzy_scorer`, hence `score`) does not skip the backtrace for candidates
longer than 1024 characters: on the 1025-character candidate
`"a"*1024 + "b"` and query `"b"` it returns the genuine offset `[1024]`
(and score `-5.12`), not the all-zero offsets the claim describes. -/
theorem bigHay_length : bigHay.length = 1025 := by
  rw [show bigHay = List.replicate 1024 'a' ++ ['b'] from rfl]
  rw [List.length_append, List.length_replicate]
  rfl

theorem C3_cex :
    1024 < bigHay.length ∧
    fzy_scorer ['b'] bigHay = (.val (-5120), some [1024]) ∧
    some [(1024 : ℕ)] ≠ some (List.replicate 1 0) := by
  refine ⟨by rw [bigHay_length]; norm_num, ?_, by decide⟩
  have h := fzy_scorer_hayK 1024 (by norm_num)
  rw [show bigHay = List.replicate 1024 'a' ++ ['b'] from rfl, h]
  norm_num

/-- Claim C3 (amended): the 1024-character cap lives only in the helper
`positions`, which the ranking path never calls: for every candidate
longer than 1024 characters `positions` returns the degenerate all-zero
offset list (with no score), while the ranking path's `score` still
performs the backtrace (see the counterexample). -/
theorem C3_positions_cap (q h : List Char) (hm : 1024 < h.length) :
    positions q h = .inr (List.replicate q.length 0) := by
  unfold positions
  simp only []
  split_ifs with h1 h2 h3
  all_goals first | rfl | omega

theorem C3_positions_cap_witness :
    1024 < bigHay.length ∧ positions ['b'] bigHay = .inr (List.replicate 1 0) :=
  ⟨by rw [bigHay_length]; norm_num,
   C3_positions_cap ['b'] bigHay (by rw [bigHay_length]; norm_num)⟩

/-!  ## Subsequence lemmas and claim C4 -/

theorem subseqGo_tail : ∀ (t : List Char) (c : Char) (cs : List Char),
    subseqGo (c :: cs) t = true → subseqGo cs t = true := by
  intro t
  induction t with
  | nil => intro c cs h; exact absurd h (by simp [subseqGo])
  | cons x xs ih =>
    intro c cs h
    have key : subseqGo cs xs = true := by
      by_cases hxc : x = c
      · rw [subseqGo, if_pos hxc] at h
        exact h
      · rw [subseqGo, if_neg hxc] at h
        exact ih c cs h
    cases cs with
    | nil => rfl
    | cons d ds =>
      rw [subseqGo]
      by_cases hxd : x = d
      · rw [if_pos hxd]
        exact ih d ds key
      · rw [if_neg hxd]
        exact key

theorem subseqGo_cons (q t : List Char) (x : Char) (h : subseqGo q t = true) :
    subseqGo q (x :: t) = true := by
  cases q with
  | nil => rfl
  | cons c cs =>
    rw [subseqGo]
    by_cases hxc : x = c
    · rw [if_pos hxc]
      exact subseqGo_tail t c cs h
    · rw [if_neg hxc]
      exact h

theorem subseqGo_drop (q : List Char) : ∀ (k : ℕ) (h : List Char),
    subseqGo q (h.drop k) = true → subseqGo q h = true := by
  intro k
  induction k with
  | zero => intro h hh; simpa using hh
  | succ k ih =>
    intro h hh
    cases h with
    | nil => simpa using hh
    | cons x xs =>
      have hx : subseqGo q (xs.drop k) = true := by simpa using hh
      exact subseqGo_cons q xs x (ih xs hx)

theorem subsequence_drop (q c : List Char) (k : ℕ)
    (h : subsequence q (c.drop k) = true) : subsequence q c = true := by
  unfold subsequence at *
  rw [List.map_drop] at h
  exact subseqGo_drop _ k _ h

theorem mem_insertDesc {x y : Scored} {l : List Scored} :
    y ∈ insertDesc x l ↔ y = x ∨ y ∈ l := by
  induction l with
  | nil => simp [insertDesc]
  | cons z zs ih =>
    rw [insertDesc]
    split
    · rw [List.mem_cons, ih]
      simp only [List.mem_cons]
      tauto
    · simp only [List.mem_cons]

theorem mem_sortDesc {y : Scored} : ∀ {l : List Scored}, y ∈ sortDesc l ↔ y ∈ l := by
  intro l
  induction l with
  | nil => simp [sortDesc]
  | cons x xs ih =>
    show y ∈ insertDesc x (sortDesc xs) ↔ _
    rw [mem_insertDesc]
    simp only [List.mem_cons, ih]

theorem mem_apply_score {scorer : ScorerFn} {q : List Char} {cs : List (List Char)}
    {icon : Bool} {it : Scored} (h : it ∈ apply_score scorer q cs icon) :
    ∃ c ∈ cs, it.text = c ∧ (scorer q (if icon then c.drop 2 else c)).1 ≠ .ninf ∧
      it.score = (scorer q (if icon then c.drop 2 else c)).1 := by
  unfold apply_score at h
  rw [List.mem_filterMap] at h
  obtain ⟨c, hc, hsome⟩ := h
  simp only [] at hsome
  by_cases hn : (scorer q (if icon then c.drop 2 else c)).1 = FScore.ninf
  · rw [if_pos hn] at hsome
    exact absurd hsome (by simp)
  · rw [if_neg hn] at hsome
    have heq := Option.some.inj hsome
    subst heq
    exact ⟨c, hc, rfl, hn, rfl⟩

theorem apply_score_mem_noicon {scorer : ScorerFn} {q c : List Char}
    {cs : List (List Char)} (hc : c ∈ cs) (hn : (scorer q c).1 ≠ .ninf) :
    (⟨(scorer q c).1, (scorer q c).2, c⟩ : Scored) ∈ apply_score scorer q cs false := by
  unfold apply_score
  rw [List.mem_filterMap]
  exact ⟨c, hc, by simp [hn]⟩

theorem scorerFor_of_no_space {q : List Char} (h : ' ' ∉ q) :
    scorerFor q = fzy_scorer := by
  unfold scorerFor
  rw [if_neg h]

/-- Claim C4: if the (non-empty) query is not a case-insensitive ordered
subsequence of a candidate, the subsequence test rejects it before the DP
runs (`fzy_scorer` returns the sentinel and `None`), and the single-token
ranking pipeline never surfaces that candidate with any score (in either
icon mode). -/
theorem C4_non_subsequence_excluded (q c : List Char)
    (hsub : subsequence q c = false) :
    fzy_scorer q c = (.ninf, none) ∧
    ∀ (cs : List (List Char)) (icon : Bool), ' ' ∉ q →
      ∀ it ∈ rankedList q cs icon, it.text ≠ c := by
  constructor
  · unfold fzy_scorer
    rw [hsub]
    simp
  · intro cs icon hsp it hit hteq
    rw [rankedList, mem_sortDesc, scoredList, scorerFor_of_no_space hsp] at hit
    obtain ⟨c', hc', htext, hne, _⟩ := mem_apply_score hit
    rw [hteq] at htext
    subst htext
    have hfalse : subsequence q (if icon then c.drop 2 else c) = false := by
      cases icon
      · show subsequence q c = false
        exact hsub
      · show subsequence q (c.drop 2) = false
        cases hq : subsequence q (c.drop 2)
        · rfl
        · exact absurd (subsequence_drop q c 2 hq) (by rw [hsub]; simp)
    apply hne
    unfold fzy_scorer
    rw [hfalse]
    simp

theorem C4_witness :
    subsequence ['z'] ['a'] = false ∧ fzy_scorer ['z'] ['a'] = (.ninf, none) :=
  ⟨by decide, (C4_non_subsequence_excluded ['z'] ['a'] (by decide)).1⟩

/-!  ## Matrix equations and claim C5 -/

theorem dpD_zero (q h : List Char) (j : ℕ) :
    dpD q h 0 j = Drow ((q.map Char.toLower).getD 0 ' ') (h.map Char.toLower) (bonus h)
      true (fun _ => .ninf) (fun _ => .ninf) j := rfl

theorem dpD_succ (q h : List Char) (i j : ℕ) :
    dpD q h (i + 1) j = Drow ((q.map Char.toLower).getD (i + 1) ' ') (h.map Char.toLower)
      (bonus h) false (fun j' => dpD q h i j') (fun j' => dpM q h i j') j := rfl

theorem dpM_eq (q h : List Char) (i j : ℕ) :
    dpM q h i j = Mrow (gapFor q.length i) (fun j' => dpD q h i j') j := by
  cases i with
  | zero => rfl
  | succ i => rfl

/-- Claim C5: under the all-positions-match hypothesis (every query
character equals every candidate character after case folding), with
`0 < n < m`, the DP fills `D[0][j] = j·GAP_LEADING + bonus[j]`,
`D[i][0] = SCORE_MIN` for `i > 0`,
`D[i][j] = max(M[i-1][j-1] + bonus[j], D[i-1][j-1] + MATCH_CONSECUTIVE)`
otherwise; `M[i][j] = max(D[i][j], M[i][j-1] + gap)` with the trailing gap
on the last row and the inner gap elsewhere; the returned score is
`M[n-1][m-1]`; and the numeric constants are exactly the reference's
(scores scaled by 1000: gaps −0.005/−0.005/−0.01, consecutive 1.0, slash
0.9, word 0.8, camel 0.7, dot 0.6). -/
theorem C5_dp_recurrence (q h : List Char) (hn : q.length ≠ 0) (hlt : q.length < h.length)
    (hall : ∀ i < q.length, ∀ j < h.length,
      (q.map Char.toLower).getD i ' ' = (h.map Char.toLower).getD j ' ') :
    (∀ j < h.length, dpD q h 0 j = .val ((j : ℤ) * SCORE_GAP_LEADING + (bonus h).getD j 0)) ∧
    (∀ i, 0 < i → i < q.length → dpD q h i 0 = .ninf) ∧
    (∀ i j, 0 < i → i < q.length → 0 < j → j < h.length →
      dpD q h i j = FScore.fmax ((dpM q h (i - 1) (j - 1)).addQ ((bonus h).getD j 0))
        ((dpD q h (i - 1) (j - 1)).addQ SCORE_MATCH_CONSECUTIVE)) ∧
    (∀ i j, i < q.length → j < h.length →
      dpM q h i j = FScore.fmax (dpD q h i j)
        ((if j = 0 then FScore.ninf else dpM q h i (j - 1)).addQ
          (if i = q.length - 1 then SCORE_GAP_TRAILING else SCORE_GAP_INNER))) ∧
    (score q h).1 = dpM q h (q.length - 1) (h.length - 1) ∧
    SCORE_GAP_LEADING = -5 ∧ SCORE_GAP_TRAILING = -5 ∧ SCORE_GAP_INNER = -10 ∧
    SCORE_MATCH_CONSECUTIVE = 1000 ∧ SCORE_MATCH_SLASH = 900 ∧
    SCORE_MATCH_WORD = 800 ∧ SCORE_MATCH_CAPITAL = 700 ∧ SCORE_MATCH_DOT = 600 := by
  refine ⟨?_, ?_, ?_, ?_, ?_, rfl, rfl, rfl, rfl, rfl, rfl, rfl, rfl⟩
  · intro j hj
    rw [dpD_zero]
    unfold Drow
    rw [if_pos (hall 0 (by omega) j hj).symm]
    rfl
  · intro i h0 hi
    obtain ⟨i', rfl⟩ : ∃ i', i = i' + 1 := ⟨i - 1, by omega⟩
    rw [dpD_succ]
    unfold Drow
    split
    · simp
    · rfl
  · intro i j h0i hi h0j hj
    obtain ⟨i', rfl⟩ : ∃ i', i = i' + 1 := ⟨i - 1, by omega⟩
    rw [dpD_succ]
    unfold Drow
    rw [if_pos (hall (i' + 1) hi j hj).symm]
    simp only [Nat.add_sub_cancel, Bool.false_eq_true, if_false]
    rw [if_neg (by omega : ¬ j = 0)]
  · intro i j hi hj
    cases j with
    | zero =>
      rw [dpM_eq]
      rfl
    | succ j' =>
      rw [dpM_eq q h i (j' + 1)]
      simp only [Nat.add_sub_cancel]
      rw [dpM_eq q h i j']
      rfl
  · unfold score
    rw [if_neg (by omega : ¬(q.length = 0 ∨ q.length = h.length))]
    rfl

theorem C5_witness :
    (score ['a'] ['a', 'a']).1 = dpM ['a'] ['a', 'a'] 0 1 :=
  (C5_dp_recurrence ['a'] ['a', 'a'] (by decide) (by decide) (by decide)).2.2.2.2.1

/-!  ## Claim C8: stability and sortedness of the ranking -/

theorem insertDesc_filter_score (x : Scored) (s : FScore) : ∀ l : List Scored,
    (insertDesc x l).filter (fun it => decide (it.score = s)) =
      if x.score = s then x :: l.filter (fun it => decide (it.score = s))
      else l.filter (fun it => decide (it.score = s)) := by
  intro l
  induction l with
  | nil => by_cases h : x.score = s <;> simp [insertDesc, h]
  | cons y ys ih =>
    rw [insertDesc]
    by_cases hlt : FScore.blt x.score y.score = true
    · rw [if_pos hlt]
      by_cases hx : x.score = s
      · have hy : ¬ y.score = s := by
          intro hy
          rw [hx, hy] at hlt
          rw [FScore.blt_irrefl] at hlt
          cases hlt
        simp [List.filter_cons, hy, hx, ih]
      · simp [List.filter_cons, ih, hx]
    · rw [if_neg hlt]
      by_cases hx : x.score = s <;> simp [List.filter_cons, hx]

theorem sortDesc_filter_score (l : List Scored) (s : FScore) :
    (sortDesc l).filter (fun it => decide (it.score = s)) =
      l.filter (fun it => decide (it.score = s)) := by
  induction l with
  | nil => rfl
  | cons x xs ih =>
    show (insertDesc x (sortDesc xs)).filter _ = _
    rw [insertDesc_filter_score, List.filter_cons]
    by_cases hx : x.score = s <;> simp [hx, ih]

theorem pairwise_insertDesc (x : Scored) : ∀ l : List Scored,
    l.Pairwise (fun a b => FScore.blt a.score b.score = false) →
    (insertDesc x l).Pairwise (fun a b => FScore.blt a.score b.score = false) := by
  intro l
  induction l with
  | nil => intro _; simp [insertDesc]
  | cons y ys ih =>
    intro hp
    rw [List.pairwise_cons] at hp
    obtain ⟨hy, hys⟩ := hp
    rw [insertDesc]
    by_cases hlt : FScore.blt x.score y.score = true
    · rw [if_pos hlt, List.pairwise_cons]
      refine ⟨?_, ih hys⟩
      intro z hz
      rcases mem_insertDesc.mp hz with rfl | hz
      · exact FScore.blt_asymm hlt
      · exact hy z hz
    · rw [if_neg hlt, List.pairwise_cons]
      have hxf : FScore.blt x.score y.score = false := by
        revert hlt
        cases FScore.blt x.score y.score <;> simp
      refine ⟨?_, List.Pairwise.cons hy hys⟩
      intro z hz
      rcases List.mem_cons.mp hz with rfl | hz
      · exact hxf
      · exact FScore.blt_trans_neg hxf (hy z hz)

theorem pairwise_sortDesc (l : List Scored) :
    (sortDesc l).Pairwise (fun a b => FScore.blt a.score b.score = false) := by
  induction l with
  | nil => exact List.Pairwise.nil
  | cons x xs ih => exact pairwise_insertDesc x (sortDesc xs) ih

theorem filterMap_text_sublist (f : List Char → Option Scored)
    (hf : ∀ c it, f c = some it → it.text = c) :
    ∀ cs : List (List Char), ((cs.filterMap f).map (·.text)).Sublist cs := by
  intro cs
  induction cs with
  | nil => simp
  | cons c cs ih =>
    rw [List.filterMap_cons]
    cases hfc : f c with
    | none => exact ih.cons c
    | some it =>
      rw [List.map_cons, hf c it hfc]
      exact ih.cons₂ c

/-- Claim C8: the ranked output is stable — for each score value, the
sublist of ranked items with that score equals, in order, the sublist of
the (input-ordered) scored items with that score — and it is sorted by
score descending, so a strictly higher score always precedes a lower one;
the scored items themselves appear in candidate input order (their texts
form a sublist of the input). -/
theorem C8_stable_descending (q : List Char) (cs : List (List Char)) (icon : Bool) :
    (∀ s : FScore, (rankedList q cs icon).filter (fun it => decide (it.score = s)) =
      (scoredList q cs icon).filter (fun it => decide (it.score = s))) ∧
    (rankedList q cs icon).Pairwise (fun a b => FScore.blt a.score b.score = false) ∧
    ((scoredList q cs icon).map (·.text)).Sublist cs := by
  refine ⟨fun s => sortDesc_filter_score _ s, pairwise_sortDesc _, ?_⟩
  have hrepr : scoredList q cs icon = cs.filterMap (fun c =>
      let candidate := if icon then c.drop 2 else c
      let r := scorerFor q q candidate
      if r.1 = .ninf then none
      else some ⟨r.1, if icon then r.2.map (fun l => l.map (· + 4)) else r.2, c⟩) := rfl
  rw [hrepr]
  apply filterMap_text_sublist
  intro c it h
  simp only [] at h
  by_cases hn : (scorerFor q q (if icon then c.drop 2 else c)).1 = FScore.ninf
  · rw [if_pos hn] at h
    exact absurd h (by simp)
  · rw [if_neg hn] at h
    have heq := Option.some.inj h
    subst heq
    rfl

/-!  ## Claim C10: matching candidates never score the sentinel -/

theorem FScore.blt_ninf_left {x : FScore} (h : x ≠ .ninf) :
    FScore.blt .ninf x = true := by
  cases x <;> simp_all [FScore.blt]

theorem subseqGo_eq_isSome_subseqPos : ∀ (h q : List Char) (k : ℕ),
    subseqGo q h = (subseqPos q h k).isSome := by
  intro h
  induction h with
  | nil =>
    intro q k
    cases q with
    | nil => rfl
    | cons c cs => rfl
  | cons x xs ih =>
    intro q k
    cases q with
    | nil => rfl
    | cons c cs =>
      rw [subseqGo, subseqPos]
      by_cases hxc : x = c
      · rw [if_pos hxc, if_pos hxc, ih cs (k + 1)]
        cases subseqPos cs xs (k + 1) <;> rfl
      · rw [if_neg hxc, if_neg hxc]
        exact ih (c :: cs) (k + 1)

theorem subseqPos_spec : ∀ (h q : List Char) (k : ℕ) (ps : List ℕ),
    subseqPos q h k = some ps →
    ps.length = q.length ∧
    (∀ p ∈ ps, k ≤ p) ∧
    (∀ t, t < ps.length → ps.getD t 0 - k < h.length ∧
      h.getD (ps.getD t 0 - k) ' ' = q.getD t ' ') ∧
    List.Pairwise (· < ·) ps := by
  intro h
  induction h with
  | nil =>
    intro q k ps hps
    cases q with
    | nil =>
      obtain rfl : ps = [] := (Option.some.inj hps).symm
      exact ⟨rfl, by simp, by simp, List.Pairwise.nil⟩
    | cons c cs => exact absurd hps (by rw [subseqPos]; simp)
  | cons x xs ih =>
    intro q k ps hps
    cases q with
    | nil =>
      obtain rfl : ps = [] := (Option.some.inj hps).symm
      exact ⟨rfl, by simp, by simp, List.Pairwise.nil⟩
    | cons c cs =>
      rw [subseqPos] at hps
      by_cases hxc : x = c
      · rw [if_pos hxc] at hps
        rw [Option.map_eq_some'] at hps
        obtain ⟨ps', hps', rfl⟩ := hps
        obtain ⟨hlen, hmem, hidx, hpw⟩ := ih cs (k + 1) ps' hps'
        refine ⟨by simp [hlen], ?_, ?_, ?_⟩
        · intro p hp
          rcases List.mem_cons.mp hp with rfl | hp
          · exact le_refl _
          · exact Nat.le_of_succ_le (hmem p hp)
        · intro t ht
          cases t with
          | zero =>
            refine ⟨by simp, ?_⟩
            simp only [List.getD_cons_zero, Nat.sub_self]
            rw [hxc]
          | succ t' =>
            have ht' : t' < ps'.length := by
              simpa using ht
            obtain ⟨hb, hm⟩ := hidx t' ht'
            have hmem' : ps'.getD t' 0 ∈ ps' := by
              rw [List.getD_eq_getElem _ _ ht']
              exact List.getElem_mem ht'
            have hk1 : k + 1 ≤ ps'.getD t' 0 := hmem _ hmem'
            refine ⟨?_, ?_⟩
            · simp only [List.getD_cons_succ, List.length_cons]
              omega
            · simp only [List.getD_cons_succ]
              have : ps'.getD t' 0 - k = (ps'.getD t' 0 - (k + 1)) + 1 := by omega
              rw [this, List.getD_cons_succ]
              exact hm
        · rw [List.pairwise_cons]
          refine ⟨fun p hp => Nat.lt_of_succ_le (hmem p hp), hpw⟩
      · rw [if_neg hxc] at hps
        obtain ⟨hlen, hmem, hidx, hpw⟩ := ih (c :: cs) (k + 1) ps hps
        refine ⟨hlen, fun p hp => Nat.le_of_succ_le (hmem p hp), ?_, hpw⟩
        intro t ht
        obtain ⟨hb, hm⟩ := hidx t ht
        have hk1 : k + 1 ≤ ps.getD t 0 := by
          apply hmem
          rw [List.getD_eq_getElem _ _ ht]
          exact List.getElem_mem ht
        refine ⟨by simp only [List.length_cons]; omega, ?_⟩
        have : ps.getD t 0 - k = (ps.getD t 0 - (k + 1)) + 1 := by omega
        rw [this, List.getD_cons_succ]
        exact hm

theorem Mrow_ne_ninf_of_le {g : ℤ} {Di : ℕ → FScore} {j0 : ℕ} (h : Di j0 ≠ .ninf) :
    ∀ j, j0 ≤ j → Mrow g Di j ≠ .ninf := by
  intro j
  induction j with
  | zero =>
    intro hle
    obtain rfl : j0 = 0 := Nat.le_zero.mp hle
    show FScore.fmax _ _ ≠ _
    rw [Ne, FScore.fmax_eq_ninf]
    rintro ⟨h1, _⟩
    exact h h1
  | succ j ih =>
    intro hle
    by_cases hle' : j0 ≤ j
    · show FScore.fmax _ ((Mrow g Di j).addQ g) ≠ _
      rw [Ne, FScore.fmax_eq_ninf]
      rintro ⟨_, h2⟩
      exact ih hle' (FScore.addQ_eq_ninf.mp h2)
    · obtain rfl : j0 = j + 1 := by omega
      show FScore.fmax (Di (j + 1)) _ ≠ _
      rw [Ne, FScore.fmax_eq_ninf]
      rintro ⟨h1, _⟩
      exact h h1

theorem dpM_ne_ninf_of_dpD {q h : List Char} {i j0 : ℕ} (hd : dpD q h i j0 ≠ .ninf) :
    ∀ j, j0 ≤ j → dpM q h i j ≠ .ninf := by
  intro j hle
  rw [dpM_eq]
  exact Mrow_ne_ninf_of_le hd j hle

theorem dpD_succ_ne_ninf {q h : List Char} {i p : ℕ}
    (hmatch : (h.map Char.toLower).getD p ' ' = (q.map Char.toLower).getD (i + 1) ' ')
    (hp : 0 < p) (hM : dpM q h i (p - 1) ≠ .ninf) :
    dpD q h (i + 1) p ≠ .ninf := by
  rw [dpD_succ]
  unfold Drow
  rw [if_pos hmatch, if_neg (by simp), if_neg (by omega : ¬ p = 0)]
  rw [Ne, FScore.fmax_eq_ninf]
  rintro ⟨h1, _⟩
  exact hM (FScore.addQ_eq_ninf.mp h1)

theorem dpM_last_ne_ninf (q h : List Char) (hs : subsequence q h = true)
    (hn : q.length ≠ 0) :
    0 < h.length ∧ dpM q h (q.length - 1) (h.length - 1) ≠ .ninf := by
  have hps : ∃ ps, subseqPos (q.map Char.toLower) (h.map Char.toLower) 0 = some ps := by
    unfold subsequence at hs
    rw [subseqGo_eq_isSome_subseqPos _ _ 0] at hs
    exact Option.isSome_iff_exists.mp hs
  obtain ⟨ps, hps⟩ := hps
  obtain ⟨hlen, _, hidx, hpw⟩ := subseqPos_spec _ _ 0 ps hps
  rw [List.length_map] at hlen
  have hmain : ∀ t, t < q.length → dpD q h t (ps.getD t 0) ≠ .ninf := by
    intro t
    induction t with
    | zero =>
      intro h0
      have hidx0 := hidx 0 (by omega)
      rw [List.length_map, Nat.sub_zero] at hidx0
      rw [dpD_zero]
      unfold Drow
      rw [if_pos hidx0.2]
      simp
    | succ t ih =>
      intro ht
      have hidxt := hidx (t + 1) (by omega)
      rw [List.length_map] at hidxt
      have hlt : ps.getD t 0 < ps.getD (t + 1) 0 := by
        have := List.pairwise_iff_getElem.mp hpw t (t + 1)
          (by omega) (by omega) (by omega)
        rwa [List.getD_eq_getElem _ _ (by omega), List.getD_eq_getElem _ _ (by omega)]
      refine dpD_succ_ne_ninf ?_ (by omega) ?_
      · rw [Nat.sub_zero] at hidxt
        exact hidxt.2
      · exact dpM_ne_ninf_of_dpD (ih (by omega)) _ (by omega)
  have hplast := hidx (q.length - 1) (by omega)
  rw [List.length_map] at hplast
  refine ⟨by omega, ?_⟩
  apply dpM_ne_ninf_of_dpD (hmain (q.length - 1) (by omega))
  omega

theorem score_ne_ninf (q h : List Char) (hs : subsequence q h = true) :
    (score q h).1 ≠ .ninf := by
  by_cases hcond : q.length = 0 ∨ q.length = h.length
  · unfold score
    rw [if_pos hcond]
    simp
  · have hn : q.length ≠ 0 := fun h0 => hcond (Or.inl h0)
    have hfin := (dpM_last_ne_ninf q h hs hn).2
    unfold score
    rw [if_neg hcond]
    exact hfin

/-- Claim C10: for a matching candidate the DP score is strictly greater
than the no-match sentinel, `fzy_scorer` returns the sentinel together
with `None` exactly when the subsequence test fails, and the ranker's
`-inf` filter therefore never drops a genuinely matching candidate. -/
theorem C10_sentinel_iff_no_match (q c : List Char) :
    (q ≠ [] → subsequence q c = true → q.length ≠ c.length →
      FScore.blt .ninf (score q c).1 = true) ∧
    (fzy_scorer q c = (.ninf, none) ↔ subsequence q c = false) ∧
    (∀ cs : List (List Char), ' ' ∉ q → c ∈ cs → subsequence q c = true →
      ∃ it ∈ rankedList q cs false, it.text = c) := by
  refine ⟨?_, ⟨?_, ?_⟩, ?_⟩
  · intro _ hs _
    exact FScore.blt_ninf_left (score_ne_ninf q c hs)
  · intro hf
    cases hs : subsequence q c
    · rfl
    · exfalso
      unfold fzy_scorer at hf
      rw [hs] at hf
      simp only [if_pos rfl] at hf
      exact Option.noConfusion (congrArg Prod.snd hf)
  · intro hs
    unfold fzy_scorer
    rw [hs]
    simp
  · intro cs hsp hc hs
    have hne : (fzy_scorer q c).1 ≠ .ninf := by
      unfold fzy_scorer
      rw [hs]
      simpa using score_ne_ninf q c hs
    refine ⟨⟨(fzy_scorer q c).1, (fzy_scorer q c).2, c⟩, ?_, rfl⟩
    rw [rankedList, mem_sortDesc, scoredList, scorerFor_of_no_space hsp]
    exact apply_score_mem_noicon hc hne

theorem C10_witness :
    FScore.blt .ninf (score ['a'] ['b', 'a']).1 = true :=
  (C10_sentinel_iff_no_match ['a'] ['b', 'a']).1 (by decide) (by decide) (by decide)

/-!  ## Claim C6: the backtrace always finds a strictly increasing,
in-bounds offset list for a matching candidate -/

theorem dpD_ninf_of_dpM {q h : List Char} {i j : ℕ} (hM : dpM q h i j = .ninf) :
    dpD q h i j = .ninf := by
  rw [dpM_eq] at hM
  cases j with
  | zero =>
    have h0 : FScore.fmax (dpD q h i 0) (FScore.ninf.addQ (gapFor q.length i)) = .ninf := hM
    exact (FScore.fmax_eq_ninf.mp h0).1
  | succ j' =>
    have h0 : FScore.fmax (dpD q h i (j' + 1))
        ((Mrow (gapFor q.length i) (fun j' => dpD q h i j') j').addQ
          (gapFor q.length i)) = .ninf := hM
    exact (FScore.fmax_eq_ninf.mp h0).1

theorem Mrow_exists_eq {g : ℤ} {Di : ℕ → FScore} : ∀ j, Mrow g Di j ≠ .ninf →
    ∃ j', j' ≤ j ∧ Di j' = Mrow g Di j' ∧ Di j' ≠ .ninf := by
  intro j
  induction j with
  | zero =>
    intro h
    have h0 : Mrow g Di 0 = Di 0 := FScore.fmax_ninf_right (Di 0)
    exact ⟨0, le_refl 0, h0.symm, fun hn => h (h0 ▸ hn)⟩
  | succ j ih =>
    intro h
    have hM : Mrow g Di (j + 1) =
        FScore.fmax (Di (j + 1)) ((Mrow g Di j).addQ g) := rfl
    by_cases hd : Di (j + 1) = Mrow g Di (j + 1)
    · exact ⟨j + 1, le_refl _, hd, fun hn => h (hd ▸ hn)⟩
    · have harm : Mrow g Di (j + 1) = (Mrow g Di j).addQ g := by
        rcases FScore.fmax_eq_or (Di (j + 1)) ((Mrow g Di j).addQ g) with he | he
        · exact absurd (hM ▸ he.symm) hd
        · rw [hM, he]
      have hMj : Mrow g Di j ≠ .ninf := by
        intro hn
        apply h
        rw [harm, hn]
        rfl
      obtain ⟨j', hj', h1, h2⟩ := ih hMj
      exact ⟨j', le_trans hj' (Nat.le_succ j), h1, h2⟩

theorem dpM_exists_eq {q h : List Char} {i j : ℕ} (hM : dpM q h i j ≠ .ninf) :
    ∃ j', j' ≤ j ∧ dpD q h i j' = dpM q h i j' ∧ dpD q h i j' ≠ .ninf := by
  rw [dpM_eq] at hM
  obtain ⟨j', hj', h1, h2⟩ := Mrow_exists_eq j hM
  exact ⟨j', hj', by rw [dpM_eq]; exact h1, h2⟩

theorem scanRow_lt {Di Mi : ℕ → FScore} {mr : Bool} : ∀ {jN j : ℕ},
    scanRow Di Mi mr jN = some j → j < jN := by
  intro jN
  induction jN with
  | zero => intro j hsc; exact absurd hsc (by rw [scanRow]; simp)
  | succ jN ih =>
    intro j hsc
    rw [scanRow] at hsc
    by_cases hc : ((mr || decide (Di jN = Mi jN)) && !decide (Di jN = FScore.ninf)) = true
    · rw [if_pos hc] at hsc
      obtain rfl := Option.some.inj hsc
      exact Nat.lt_succ_self _
    · rw [if_neg hc] at hsc
      exact Nat.lt_succ_of_lt (ih hsc)

theorem scanRow_cond {Di Mi : ℕ → FScore} {mr : Bool} : ∀ {jN j : ℕ},
    scanRow Di Mi mr jN = some j →
    (mr = true ∨ Di j = Mi j) ∧ Di j ≠ .ninf := by
  intro jN
  induction jN with
  | zero => intro j hsc; exact absurd hsc (by rw [scanRow]; simp)
  | succ jN ih =>
    intro j hsc
    rw [scanRow] at hsc
    by_cases hc : ((mr || decide (Di jN = Mi jN)) && !decide (Di jN = FScore.ninf)) = true
    · rw [if_pos hc] at hsc
      obtain rfl := Option.some.inj hsc
      simp only [Bool.and_eq_true, Bool.or_eq_true, decide_eq_true_eq,
        Bool.not_eq_true', decide_eq_false_iff_not] at hc
      exact hc
    · rw [if_neg hc] at hsc
      exact ih hsc

theorem scanRow_some_of_exists {Di Mi : ℕ → FScore} {mr : Bool} : ∀ {jN : ℕ},
    (∃ j, j < jN ∧ (mr = true ∨ Di j = Mi j) ∧ Di j ≠ .ninf) →
    ∃ j, scanRow Di Mi mr jN = some j := by
  intro jN
  induction jN with
  | zero => rintro ⟨j, hj, _⟩; omega
  | succ jN ih =>
    rintro ⟨j, hj, hcond⟩
    by_cases hc : ((mr || decide (Di jN = Mi jN)) && !decide (Di jN = FScore.ninf)) = true
    · exact ⟨jN, by rw [scanRow, if_pos hc]⟩
    · have hjlt : j < jN := by
        rcases Nat.lt_succ_iff_lt_or_eq.mp hj with hlt | rfl
        · exact hlt
        · exfalso
          apply hc
          simp only [Bool.and_eq_true, Bool.or_eq_true, decide_eq_true_eq,
            Bool.not_eq_true', decide_eq_false_iff_not]
          exact hcond
      obtain ⟨j0, hj0⟩ := ih ⟨j, hjlt, hcond⟩
      exact ⟨j0, by rw [scanRow, if_neg hc]; exact hj0⟩

theorem dpD_ne_ninf_elim {q h : List Char} {i j : ℕ} (hd : dpD q h (i + 1) j ≠ .ninf) :
    0 < j ∧ dpM q h i (j - 1) ≠ .ninf := by
  rw [dpD_succ] at hd
  unfold Drow at hd
  by_cases hm : (h.map Char.toLower).getD j ' ' = (q.map Char.toLower).getD (i + 1) ' '
  case neg =>
    rw [if_neg hm] at hd
    exact absurd rfl hd
  rw [if_pos hm] at hd
  simp only [Bool.false_eq_true, if_false] at hd
  by_cases hj : j = 0
  · rw [if_pos hj] at hd
    exact absurd rfl hd
  · rw [if_neg hj] at hd
    refine ⟨by omega, ?_⟩
    intro hM
    apply hd
    rw [FScore.fmax_eq_ninf]
    constructor
    · rw [hM]
      rfl
    · rw [dpD_ninf_of_dpM hM]
      rfl

theorem dpM_ne_ninf_of_dpD_cell {q h : List Char} {i j : ℕ}
    (hd : dpD q h i j ≠ .ninf) : dpM q h i j ≠ .ninf :=
  fun hM => hd (dpD_ninf_of_dpM hM)

theorem btGo_spec (q h : List Char) : ∀ (k : ℕ) (jN : ℕ) (mr : Bool),
    (0 < k → BtInv (fun j => dpD q h (k - 1) j) (fun j => dpM q h (k - 1) j) jN mr) →
    (btGo (scoreRows q h) k jN mr).length = k ∧
    List.Pairwise (· < ·) (btGo (scoreRows q h) k jN mr) ∧
    (∀ x ∈ btGo (scoreRows q h) k jN mr, x < jN) := by
  intro k
  induction k with
  | zero =>
    intro jN mr _
    exact ⟨rfl, List.Pairwise.nil, by simp [btGo]⟩
  | succ k ih =>
    intro jN mr hinv
    have hinv' := hinv (Nat.succ_pos k)
    simp only [Nat.add_sub_cancel] at hinv'
    -- the scan of row k succeeds
    have hscan : ∃ j, scanRow (fun j => dpD q h k j) (fun j => dpM q h k j) mr jN = some j := by
      apply scanRow_some_of_exists
      cases mr with
      | true =>
        obtain ⟨hjN, hD⟩ := hinv'.1 rfl
        exact ⟨jN - 1, by omega, Or.inl rfl, hD⟩
      | false =>
        obtain ⟨j, hj, hDM, hne⟩ := hinv'.2 rfl
        exact ⟨j, hj, Or.inr hDM, hne⟩
    obtain ⟨j, hj⟩ := hscan
    have hjlt : j < jN := scanRow_lt hj
    have hcond := scanRow_cond hj
    have hD : dpD q h k j ≠ .ninf := hcond.2
    -- unfold one step of the backtrace
    have hstep : btGo (scoreRows q h) (k + 1) jN mr =
        btGo (scoreRows q h) k j
          (decide (0 < k) && decide (0 < j) &&
            decide ((scoreRows q h k).2 j =
              ((scoreRows q h (k - 1)).1 (j - 1)).addQ SCORE_MATCH_CONSECUTIVE))
          ++ [j] := by
      rw [btGo]
      have : scanRow (scoreRows q h k).1 (scoreRows q h k).2 mr jN = some j := hj
      rw [this]
    set mr' := (decide (0 < k) && decide (0 < j) &&
        decide ((scoreRows q h k).2 j =
          ((scoreRows q h (k - 1)).1 (j - 1)).addQ SCORE_MATCH_CONSECUTIVE)) with hmr'
    have hrec : (btGo (scoreRows q h) k j mr').length = k ∧
        List.Pairwise (· < ·) (btGo (scoreRows q h) k j mr') ∧
        (∀ x ∈ btGo (scoreRows q h) k j mr', x < j) := by
      apply ih
      intro hk
      obtain ⟨k', rfl⟩ : ∃ k', k = k' + 1 := ⟨k - 1, by omega⟩
      simp only [Nat.add_sub_cancel]
      obtain ⟨hj0, hMprev⟩ := dpD_ne_ninf_elim hD
      constructor
      · intro hmr
        refine ⟨hj0, ?_⟩
        rw [hmr'] at hmr
        simp only [Bool.and_eq_true, decide_eq_true_eq] at hmr
        have hMk : dpM q h (k' + 1) j ≠ .ninf := dpM_ne_ninf_of_dpD_cell hD
        have heq := hmr.2
        intro hn
        apply hMk
        show (scoreRows q h (k' + 1)).2 j = FScore.ninf
        rw [heq]
        have hd' : (scoreRows q h (k' + 1 - 1)).1 (j - 1) = FScore.ninf := hn
        rw [hd']
        rfl
      · intro _
        obtain ⟨j'', hle, hDM, hne⟩ := dpM_exists_eq hMprev
        exact ⟨j'', by omega, hDM, hne⟩
    rw [hstep]
    refine ⟨?_, ?_, ?_⟩
    · rw [List.length_append, hrec.1]
      simp
    · rw [List.pairwise_append]
      refine ⟨hrec.2.1, by simp, ?_⟩
      intro a ha b hb
      rw [List.mem_singleton] at hb
      subst hb
      exact hrec.2.2 a ha
    · intro x hx
      rw [List.mem_append] at hx
      rcases hx with hx | hx
      · exact Nat.lt_trans (hrec.2.2 x hx) hjlt
      · rw [List.mem_singleton] at hx
        subst hx
        exact hjlt

/-- For a matching candidate the `score` offsets are strictly increasing,
of length `n`, and all within bounds. -/
theorem fzy_offsets_good (q h : List Char) (hs : subsequence q h = true) :
    (score q h).2.length = q.length ∧
    List.Pairwise (· < ·) (score q h).2 ∧
    (∀ x ∈ (score q h).2, x < h.length) := by
  by_cases hcond : q.length = 0 ∨ q.length = h.length
  · have hscore : score q h = (.pinf, List.range q.length) := by
      unfold score
      rw [if_pos hcond]
    rw [hscore]
    refine ⟨by simp, List.pairwise_lt_range _, ?_⟩
    intro x hx
    rw [List.mem_range] at hx
    rcases hcond with h0 | hm
    · omega
    · omega
  · have hn : q.length ≠ 0 := fun h0 => hcond (Or.inl h0)
    obtain ⟨hm, hlast⟩ := dpM_last_ne_ninf q h hs hn
    have hbt : (score q h).2 = btGo (scoreRows q h) q.length h.length false := by
      unfold score
      rw [if_neg hcond]
    rw [hbt]
    apply btGo_spec
    intro _
    constructor
    · intro hfalse
      cases hfalse
    · intro _
      obtain ⟨j', hj', hDM, hne⟩ := dpM_exists_eq hlast
      exact ⟨j', by omega, hDM, hne⟩

/-!  Spec-modelled substring scorer: its offsets are also strictly
increasing, in bounds, and of total segment length. -/

theorem startsWith_length_le : ∀ (needle t : List Char),
    startsWith needle t = true → needle.length ≤ t.length := by
  intro needle
  induction needle with
  | nil => intro t _; simp
  | cons a as ih =>
    intro t hst
    cases t with
    | nil => exact absurd hst (by rw [startsWith]; simp)
    | cons b bs =>
      rw [startsWith] at hst
      by_cases hab : b = a
      · rw [if_pos hab] at hst
        simpa using ih bs hst
      · rw [if_neg hab] at hst
        cases hst

theorem findFromGo_spec (needle : List Char) : ∀ (t : List Char) (pos p : ℕ),
    findFromGo needle t pos = some p →
    pos ≤ p ∧ p - pos ≤ t.length ∧ startsWith needle (t.drop (p - pos)) = true := by
  intro t
  induction t with
  | nil =>
    intro pos p hf
    rw [findFromGo] at hf
    by_cases hsw : startsWith needle [] = true
    · rw [if_pos hsw] at hf
      obtain rfl := Option.some.inj hf
      simpa using hsw
    · rw [if_neg hsw] at hf
      cases hf
  | cons x t' ih =>
    intro pos p hf
    rw [findFromGo] at hf
    by_cases hsw : startsWith needle (x :: t') = true
    · rw [if_pos hsw] at hf
      obtain rfl := Option.some.inj hf
      simpa using hsw
    · rw [if_neg hsw] at hf
      obtain ⟨h1, h2, h3⟩ := ih (pos + 1) p hf
      refine ⟨by omega, by simp only [List.length_cons]; omega, ?_⟩
      have : p - pos = (p - (pos + 1)) + 1 := by omega
      rw [this, List.drop_succ_cons]
      exact h3

theorem findFrom_spec {needle hay : List Char} {cur p : ℕ}
    (hne : needle ≠ []) (hf : findFrom needle hay cur = some p) :
    cur ≤ p ∧ p + needle.length ≤ hay.length := by
  obtain ⟨h1, h2, h3⟩ := findFromGo_spec needle (hay.drop cur) cur p hf
  have hlen := startsWith_length_le needle _ h3
  rw [List.drop_drop, List.length_drop] at hlen
  have hn1 : 1 ≤ needle.length := by
    cases needle with
    | nil => exact absurd rfl hne
    | cons _ _ => simp
  refine ⟨h1, ?_⟩
  omega

theorem substrGo_spec (hayL : List Char) : ∀ (segs : List (List Char)) (cur : ℕ)
    (offs : List ℕ) (s : ℤ),
    (∀ seg ∈ segs, seg ≠ []) →
    substrGo hayL segs cur = some (offs, s) →
    (∀ x ∈ offs, cur ≤ x ∧ x < hayL.length) ∧
    List.Pairwise (· < ·) offs ∧
    offs.length = (segs.map List.length).sum := by
  intro segs
  induction segs with
  | nil =>
    intro cur offs s _ hsub
    rw [substrGo] at hsub
    obtain ⟨rfl, rfl⟩ := Prod.mk.injEq .. ▸ Option.some.inj hsub
    exact ⟨by simp, List.Pairwise.nil, by simp⟩
  | cons seg rest ih =>
    intro cur offs s hall hsub
    rw [substrGo] at hsub
    cases hfind : findFrom seg hayL cur with
    | none => rw [hfind] at hsub; cases hsub
    | some p =>
      rw [hfind] at hsub
      have hsub2 : (match substrGo hayL rest (p + seg.length) with
          | none => none
          | some (offs, s) => some (List.range' p seg.length ++ offs, s + (p : ℤ))) =
          some (offs, s) := hsub
      cases hrest : substrGo hayL rest (p + seg.length) with
      | none => rw [hrest] at hsub2; cases hsub2
      | some pr =>
        obtain ⟨offs', s'⟩ := pr
        rw [hrest] at hsub2
        have hinj := Option.some.inj hsub2
        have hoffs : offs = List.range' p seg.length ++ offs' :=
          (congrArg Prod.fst hinj).symm
        have hseg : seg ≠ [] := hall seg (by simp)
        obtain ⟨hcurp, hbound⟩ := findFrom_spec hseg hfind
        obtain ⟨hmem', hpw', hlen'⟩ := ih (p + seg.length) offs' s'
          (fun sg hsg => hall sg (by simp [hsg])) hrest
        subst hoffs
        refine ⟨?_, ?_, ?_⟩
        · intro x hx
          rw [List.mem_append] at hx
          rcases hx with hx | hx
          · rw [List.mem_range'_1] at hx
            constructor
            · omega
            · omega
          · have := hmem' x hx
            constructor
            · omega
            · exact this.2
        · rw [List.pairwise_append]
          refine ⟨List.pairwise_lt_range' _ _, hpw', ?_⟩
          intro a ha b hb
          rw [List.mem_range'_1] at ha
          have := (hmem' b hb).1
          omega
        · rw [List.length_append, hlen', List.map_cons, List.sum_cons]
          simp [List.length_range']

theorem splitWs_ne_nil (l : List Char) : ∀ seg ∈ splitWs l, seg ≠ [] := by
  intro seg hseg
  unfold splitWs at hseg
  rw [List.mem_filter] at hseg
  intro hnil
  subst hnil
  simp at hseg

theorem substr_offsets_good (q c : List Char) (ps : List ℕ)
    (hne : (substr_scorer q c).1 ≠ .ninf)
    (hps : (substr_scorer q c).2 = some ps) :
    ps.length = ((splitWs (q.map Char.toLower)).map List.length).sum ∧
    List.Pairwise (· < ·) ps ∧
    (∀ x ∈ ps, x < c.length) := by
  unfold substr_scorer at hne hps
  cases hgo : substrGo (c.map Char.toLower) (splitWs (q.map Char.toLower)) 0 with
  | none =>
    rw [hgo] at hne
    exact absurd rfl hne
  | some pr =>
    obtain ⟨offs, s⟩ := pr
    rw [hgo] at hps
    have hop : offs = ps := Option.some.inj hps
    obtain ⟨hmem, hpw, hlen⟩ := substrGo_spec (c.map Char.toLower) _ 0 offs s
      (splitWs_ne_nil _) hgo
    subst hop
    refine ⟨hlen, hpw, ?_⟩
    intro x hx
    have := (hmem x hx).2
    rwa [List.length_map] at this

theorem mem_apply_score_indices {scorer : ScorerFn} {q : List Char}
    {cs : List (List Char)} {icon : Bool} {it : Scored}
    (h : it ∈ apply_score scorer q cs icon) :
    ∃ c ∈ cs, it.text = c ∧ (scorer q (if icon then c.drop 2 else c)).1 ≠ .ninf ∧
      it.indices = (if icon
        then ((scorer q (if icon then c.drop 2 else c)).2).map (fun l => l.map (· + 4))
        else (scorer q (if icon then c.drop 2 else c)).2) := by
  unfold apply_score at h
  rw [List.mem_filterMap] at h
  obtain ⟨c, hc, hsome⟩ := h
  simp only [] at hsome
  by_cases hn : (scorer q (if icon then c.drop 2 else c)).1 = FScore.ninf
  · rw [if_pos hn] at hsome
    exact absurd hsome (by simp)
  · rw [if_neg hn] at hsome
    have heq := Option.some.inj hsome
    subst heq
    exact ⟨c, hc, rfl, hn, rfl⟩

/-- The fzy scorer only surfaces offsets for candidates passing the
subsequence test, and those offsets are `score`'s. -/
theorem fzy_scorer_ne_ninf_elim {q c : List Char}
    (hne : (fzy_scorer q c).1 ≠ .ninf) :
    subsequence q c = true ∧ (fzy_scorer q c).2 = some (score q c).2 := by
  unfold fzy_scorer at hne ⊢
  cases hs : subsequence q c
  · rw [hs] at hne
    simp at hne
  · simp

/-- Claim C6 (amended): every surfaced offset list is strictly increasing
and has length equal to the query's effective matched length; without
icons every offset is a valid index of the candidate, but with icons
enabled the `+4` shift over a 2-character strip makes offsets indices
into the original string only up to an excess of 2 (`o < len(text) + 2`),
and they can exceed `len(text) - 1` (see the counterexample). -/
theorem C6_offsets_shape (q : List Char) (cs : List (List Char)) (icon : Bool) :
    ∀ it ∈ rankedList q cs icon, ∀ ps, it.indices = some ps →
      List.Pairwise (· < ·) ps ∧
      ps.length = effectiveLen q ∧
      (icon = false → ∀ o ∈ ps, o < it.text.length) ∧
      (icon = true → ∀ o ∈ ps, o < it.text.length + 2) := by
  intro it hit ps hps
  rw [rankedList, mem_sortDesc] at hit
  obtain ⟨c, hc, htext, hne, hind⟩ := mem_apply_score_indices hit
  subst htext
  set cand := if icon then it.text.drop 2 else it.text with hcand
  have hcandlen : icon = true → cand.length = it.text.length - 2 := by
    intro hicon
    rw [hcand, hicon]
    simp
  have hcandlen' : icon = false → cand = it.text := by
    intro hicon
    rw [hcand, hicon]
    simp
  -- the raw (unshifted) offsets of the underlying scorer
  have hmain : ∀ ps0, (scorerFor q q cand).2 = some ps0 →
      List.Pairwise (· < ·) ps0 ∧ ps0.length = effectiveLen q ∧
      ∀ x ∈ ps0, x < cand.length := by
    intro ps0 hps0
    unfold scorerFor at hps0 hne
    by_cases hsp : ' ' ∈ q
    · rw [if_pos hsp] at hps0 hne
      obtain ⟨hlen, hpw, hbnd⟩ := substr_offsets_good q cand ps0 hne hps0
      refine ⟨hpw, ?_, hbnd⟩
      rw [hlen, effectiveLen, if_pos hsp]
    · rw [if_neg hsp] at hps0 hne
      obtain ⟨hsub, hsnd⟩ := fzy_scorer_ne_ninf_elim hne
      rw [hsnd] at hps0
      obtain rfl := Option.some.inj hps0
      obtain ⟨hlen, hpw, hbnd⟩ := fzy_offsets_good q cand hsub
      refine ⟨hpw, ?_, hbnd⟩
      rw [hlen, effectiveLen, if_neg hsp]
  cases icon with
  | false =>
    rw [if_neg (by simp)] at hind
    rw [hps] at hind
    obtain ⟨hpw, hlen, hbnd⟩ := hmain ps hind.symm
    refine ⟨hpw, hlen, ?_, ?_⟩
    · intro _ o ho
      have := hbnd o ho
      rwa [hcandlen' rfl] at this
    · intro hct
      cases hct
  | true =>
    rw [if_pos rfl] at hind
    rw [hps] at hind
    cases hraw : (scorerFor q q cand).2 with
    | none =>
      rw [hraw] at hind
      cases hind
    | some ps0 =>
      rw [hraw, Option.map_some'] at hind
      have hmap : ps = ps0.map (fun x => x + 4) := Option.some.inj hind
      obtain ⟨hpw, hlen, hbnd⟩ := hmain ps0 hraw
      subst hmap
      refine ⟨?_, ?_, ?_, ?_⟩
      · rw [List.pairwise_map]
        exact hpw.imp (by omega)
      · rw [List.length_map, hlen]
      · intro hcf
        cases hcf
      · intro _ o ho
        rw [List.mem_map] at ho
        obtain ⟨o0, ho0, rfl⟩ := ho
        have hb := hbnd o0 ho0
        rw [hcandlen rfl] at hb
        omega

/-- Claim C6 (counterexample): with icons enabled, candidate `"xyab"`
(length 4) and query `"b"` surface the offset `5`, which is not a valid
index into the original candidate string. -/
theorem C6_cex :
    (rankedList ['b'] [['x', 'y', 'a', 'b']] true).map (·.indices) = [some [5]] ∧
    ¬ (5 < (['x', 'y', 'a', 'b'] : List Char).length) := by
  refine ⟨by decide, by decide⟩

theorem C6_offsets_shape_witness :
    (rankedList ['b'] [['a', 'b']] false).map (·.indices) = [some [1]] ∧
    List.Pairwise (· < ·) [1] ∧ [1].length = effectiveLen ['b'] ∧ 1 < 2 := by
  refine ⟨by decide, ?_, ?_, by norm_num⟩
  · have h := C6_offsets_shape ['b'] [['a', 'b']] false
      ⟨.val (-5), some [1], ['a', 'b']⟩ (by decide) [1] rfl
    exact h.1
  · have h := C6_offsets_shape ['b'] [['a', 'b']] false
      ⟨.val (-5), some [1], ['a', 'b']⟩ (by decide) [1] rfl
    exact h.2.1

end Clap
